import Mathlib

/-!
Verification development for the kodirepo add-on repository builder
(`src/kodirepo/__main__.py`).

The embedding models Python strings as `List Char` (Python `str` comparison
is code-point lexicographic, which matches `List Char` lexicographic order)
and Python exceptions as an explicit error type that distinguishes
`RuntimeError` (the only exception class the worker code catches) from the
other exception classes that can escape a worker thread.

Modelled source functions:
  - `AddonVersion` (tilde/hyphen translation around semantic-version
    parsing); the underlying `semantic_version.Version`
    parser/formatter/precedence is an external library treated at its
    boundary, modelled by the standard semantic-versioning rules the spec
    names (its equality compares all five fields, its precedence order
    ignores build metadata);
  - `parse_metadata` / `parse_repo` (descriptor parsing, version
    normalization, id validation);
  - `is_url` and the source-classification chain of `fetch_addon`;
  - `fetch_addon_from_zip`'s root-directory check;
  - the per-worker result slots, the collection loop, the merge loop with
    clobber semantics, and the two-pass sort of `create_repository`;
  - file side effects of the parallel/sequential worker modes as abstract
    per-worker write traces interleaved by a schedule.
-/

/-! ## Characters and digits -/

/-- Numeric value of an ASCII digit character (`none` for non-digits). -/
def digitVal (c : Char) : Option Nat :=
  if c.isDigit then some (c.toNat - 48) else none

/-- The ASCII digit character for a value below ten. -/
def digitChar10 (d : Nat) : Char := Char.ofNat (48 + d)

/-- Numeric value of a digit string, most significant digit first;
matches Python `int` on ASCII digit strings. -/
def charsToNat (ds : List Char) : Nat :=
  Nat.ofDigits 10 ((ds.map (fun c => (digitVal c).getD 0)).reverse)

/-- Little-endian base-10 digits, fuel-driven so that the kernel can
evaluate it (`Nat.digits` is defined by well-founded recursion). -/
def digitsLE : Nat → Nat → List Nat
  | 0, _ => []
  | fuel + 1, n => if n = 0 then [] else n % 10 :: digitsLE fuel (n / 10)

/-- Decimal rendering of a natural number, matching Python `str` on `int`. -/
def natToChars (n : Nat) : List Char :=
  if n = 0 then ['0'] else ((digitsLE n n).reverse.map digitChar10)

/-- A numeric semantic-version field: nonempty, all digits, and no leading
zero (except the single digit `0` itself). -/
def validNumeric (ds : List Char) : Bool :=
  ds.all Char.isDigit &&
    match ds with
    | [] => false
    | '0' :: rest => rest.isEmpty
    | _ :: _ => true

/-! ## Splitting and joining on a separator character

Models Python `str.split(sep)` / `sep.join(parts)` for a one-character
separator. -/

/-- Split a character list on a separator, keeping empty groups, exactly like
Python `s.split(sep)`. -/
def splitOnC (sep : Char) : List Char → List (List Char)
  | [] => [[]]
  | c :: cs =>
    match splitOnC sep cs with
    | [] => [[c]]
    | g :: gs => if c = sep then [] :: g :: gs else (c :: g) :: gs

/-- Join groups with a separator, exactly like Python `sep.join(parts)`. -/
def joinSep (sep : Char) : List (List Char) → List Char
  | [] => []
  | g :: gs =>
    match gs with
    | [] => g
    | _ :: _ => g ++ sep :: joinSep sep gs

/-! ## The semantic-version data model

`semantic_version.Version` stores major/minor/patch numbers, a tuple of
pre-release identifiers and a tuple of build identifiers. -/

/-- One pre-release identifier: purely numeric identifiers are compared
numerically and sort before alphanumeric ones. -/
inductive PreId
  | num (n : Nat)
  | alnum (s : List Char)
  deriving DecidableEq

/-- A parsed semantic version. -/
structure SemVer where
  major : Nat
  minor : Nat
  patch : Nat
  pre : List PreId
  build : List (List Char)
  deriving DecidableEq

/-- Characters allowed in pre-release and build identifiers:
`[0-9A-Za-z-]`. -/
def isIdentChar (c : Char) : Bool := c.isAlpha || c.isDigit || c = '-'

/-- Parse one pre-release identifier: nonempty; all-digit identifiers are
numeric and must have no leading zero; otherwise all characters must be in
`[0-9A-Za-z-]`. -/
def parsePreId (g : List Char) : Option PreId :=
  if g.isEmpty then none
  else if g.all Char.isDigit then
    if validNumeric g then some (.num (charsToNat g)) else none
  else if g.all isIdentChar then some (.alnum g) else none

/-- Parse a dot-separated pre-release identifier list. -/
def parsePreList (gs : List (List Char)) : Option (List PreId) :=
  match gs with
  | [] => some []
  | g :: rest =>
    match parsePreId g, parsePreList rest with
    | some p, some ps => some (p :: ps)
    | _, _ => none

/-- A build identifier: nonempty, characters in `[0-9A-Za-z-]` (leading
zeros are allowed in build identifiers). -/
def validBuildId (g : List Char) : Bool := (!g.isEmpty) && g.all isIdentChar

/-- Parse the part of a version before `+`: `major.minor.patch` optionally
followed by `-` and the pre-release identifiers (which may themselves
contain hyphens, so only the first `-` separates). -/
def parseVerCore (core : List Char) (build : List (List Char)) : Option SemVer :=
  match splitOnC '-' core with
  | [] => none
  | nums :: rest =>
    let preOpt : Option (List PreId) :=
      match rest with
      | [] => some []
      | _ :: _ => parsePreList (splitOnC '.' (joinSep '-' rest))
    match preOpt with
    | none => none
    | some pre =>
      match splitOnC '.' nums with
      | [ma, mi, pa] =>
        if validNumeric ma && validNumeric mi && validNumeric pa then
          some ⟨charsToNat ma, charsToNat mi, charsToNat pa, pre, build⟩
        else none
      | _ => none

/-- Parse a full semantic version string (after tilde translation):
`major.minor.patch[-pre][+build]`. -/
def parseSemVer (s : List Char) : Option SemVer :=
  match splitOnC '+' s with
  | [core] => parseVerCore core []
  | [core, b] =>
    let bs := splitOnC '.' b
    if bs.all validBuildId then parseVerCore core bs else none
  | _ => none

/-- Render one pre-release identifier back to characters. -/
def PreId.chars : PreId → List Char
  | .num n => natToChars n
  | .alnum s => s

/-- Render the pre-`+` part of a version. -/
def formatCore (v : SemVer) : List Char :=
  natToChars v.major ++ '.' :: natToChars v.minor ++ '.' :: natToChars v.patch
    ++ (match v.pre with
        | [] => []
        | _ :: _ => '-' :: joinSep '.' (v.pre.map PreId.chars))

/-- Render a full semantic version back to its canonical string. -/
def formatSemVer (v : SemVer) : List Char :=
  formatCore v ++
    (match v.build with
     | [] => []
     | _ :: _ => '+' :: joinSep '.' v.build)

/-- Tilde-to-hyphen translation done by `AddonVersion.parse`
(`version_string.replace('~', '-')`). -/
def tildeToHyphen (s : List Char) : List Char :=
  s.map fun c => if c = '~' then '-' else c

/-- Hyphen-to-tilde translation done by `AddonVersion.__str__`
(`.replace('-', '~')`). -/
def hyphenToTilde (s : List Char) : List Char :=
  s.map fun c => if c = '-' then '~' else c

/-- Model of `AddonVersion.parse`: translate every tilde to a hyphen, then
parse as a standard semantic version.  `none` models the `ValueError`
(`MalformedVersion`) raised by `semantic_version` on unparsable input. -/
def AddonVersion.parse (s : List Char) : Option SemVer :=
  parseSemVer (tildeToHyphen s)

/-- Model of `AddonVersion.__str__`: render canonically, then translate
every hyphen to a tilde. -/
def AddonVersion.str (v : SemVer) : List Char :=
  hyphenToTilde (formatSemVer v)

/-! ## Semantic-version precedence

The precedence order used by `list.sort(key=lambda m: m.version)` compares
`(major, minor, patch, prerelease)` lexicographically, ignores build
metadata, places a release above every pre-release of the same number
triple, compares numeric identifiers below alphanumeric ones and a shorter
identifier list below its extensions.  It is modelled by an order embedding
into an existing linear order. -/

/-- Key of one pre-release identifier: numeric identifiers order below
alphanumeric ones, numerically; alphanumeric ones lexicographically in
code-point (ASCII) order. -/
def PreId.key : PreId → Nat ⊕ₗ List Char
  | .num n => toLex (Sum.inl n)
  | .alnum s => toLex (Sum.inr s)

/-- The carrier of semantic-version precedence keys. -/
abbrev PrecKey := Lex (Nat × Lex (Nat × Lex (Nat × WithTop (List (Nat ⊕ₗ List Char)))))

/-- Precedence key of a version: build metadata is ignored; an empty
pre-release list (a release) is the top of the last component. -/
def SemVer.precKey (v : SemVer) : PrecKey :=
  toLex (v.major, toLex (v.minor, toLex (v.patch,
    match v.pre with
    | [] => (⊤ : WithTop (List (Nat ⊕ₗ List Char)))
    | _ :: _ => (WithTop.some (v.pre.map PreId.key)))))

/-! ## Stable sorting

Python `list.sort` is a stable sort; with `reverse=True` it is stable with
the comparison reversed.  A stable sort's output is uniquely determined by
the (total, transitive) boolean comparison, so it is modelled by stable
insertion sort. -/

/-- Insert an element before the first position whose element it compares
`le` to; equal elements therefore keep their original relative order. -/
def insertLe (le : α → α → Bool) (x : α) : List α → List α
  | [] => [x]
  | y :: ys => if le x y then x :: y :: ys else y :: insertLe le x ys

/-- Stable insertion sort. -/
def isort (le : α → α → Bool) : List α → List α
  | [] => []
  | x :: xs => insertLe le x (isort le xs)

/-! ## Data model of records, errors and descriptor sources -/

/-- The descriptor element of one addon: the attributes the tool reads,
plus an opaque payload standing for all other attributes and children. -/
structure XmlElem where
  idAttr : Option (List Char)
  versionAttr : Option (List Char)
  payload : Nat
  deriving DecidableEq

/-- A metadata input as seen by `parse_metadata`: unopenable (`IOError`),
unparsable markup (`xml.etree.ElementTree.ParseError`), or a parsed
document with a root element. -/
inductive XmlSource
  | ioError
  | malformed
  | doc (root : XmlElem)
  deriving DecidableEq

/-- The catalog file as seen by `parse_repo`. -/
inductive RepoSource
  | ioError
  | malformed
  | doc (els : List XmlElem)
  deriving DecidableEq

/-- The `AddonMetadata` namedtuple `(id, version, root)`. -/
structure AddonMetadata where
  id : List Char
  version : SemVer
  root : XmlElem
  deriving DecidableEq

/-- Messages of the `RuntimeError`s the tool raises itself. -/
inductive RTMsg
  | cannotOpen
  | invalidId (idAttr : Option (List Char))
  | malformedArchive
  | pathNotFound (loc : List Char)
  | duplicateVersion
  | workerNoResult
  deriving DecidableEq

/-- Python exceptions relevant to the tool: its own `RuntimeError`s, and
the library exception classes that are NOT `RuntimeError` and therefore
escape the `except RuntimeError` in `fetch_addon`. -/
inductive PyError
  | runtimeError (msg : RTMsg)
  | xmlParseError
  | valueError
  | attributeError
  | keyError
  deriving DecidableEq

/-! ## MetadataParser: `parse_metadata` and `parse_repo` -/

/-- Characters the id validation accepts: the class `[a-z0-9._-]` of
`re.search('[^a-z0-9._-]', id)`. -/
def isAddonIdChar (c : Char) : Bool :=
  c.isLower || c.isDigit || c = '.' || c = '_' || c = '-'

/-- The code's id acceptance: the attribute is present and `re.search`
finds no character outside `[a-z0-9._-]` (an empty id passes). -/
def validAddonId : Option (List Char) → Bool
  | none => false
  | some s => s.all isAddonIdChar

/-- The id acceptance in the words of the spec: present, nonempty, and
fully matching `[a-z0-9._-]+`. -/
def specAcceptId : Option (List Char) → Bool
  | none => false
  | some s => (!s.isEmpty) && s.all isAddonIdChar

/-- Model of `parse_metadata`: open/parse the document, parse the version
attribute (before the id is validated, mirroring the statement order), store
the normalized version string back into the element, then validate the id. -/
def parse_metadata : XmlSource → Except PyError AddonMetadata
  | .ioError => .error (.runtimeError .cannotOpen)
  | .malformed => .error .xmlParseError
  | .doc root =>
    match root.versionAttr with
    | none => .error .attributeError
    | some vs =>
      match AddonVersion.parse vs with
      | none => .error .valueError
      | some v =>
        if validAddonId root.idAttr then
          .ok ⟨root.idAttr.getD [], v,
               { root with versionAttr := some (AddonVersion.str v) }⟩
        else .error (.runtimeError (.invalidId root.idAttr))

/-- The per-element body of `parse_repo`, applied in document order; the
first failing element aborts the whole parse (the generator is consumed by
`list(...)`). -/
def parseRepoElems : List XmlElem → Except PyError (List AddonMetadata)
  | [] => .ok []
  | el :: rest =>
    match parse_metadata (.doc el), parseRepoElems rest with
    | .ok m, .ok ms => .ok (m :: ms)
    | .error e, _ => .error e
    | .ok _, .error e => .error e

/-- Model of `parse_repo`. -/
def parse_repo : RepoSource → Except PyError (List AddonMetadata)
  | .ioError => .error (.runtimeError .cannotOpen)
  | .malformed => .error .xmlParseError
  | .doc els => parseRepoElems els

/-! ## Source classification -/

/-- Characters of a URL scheme: the class `[A-Za-z0-9+.-]`. -/
def schemeChar (c : Char) : Bool :=
  c.isAlpha || c.isDigit || c = '+' || c = '.' || c = '-'

/-- Model of `is_url`: `re.match('[A-Za-z0-9+.-]+://.', loc)` — a nonempty
scheme, then `://`, then one character that the regex dot accepts, i.e. any
character except a newline. -/
def is_url (s : List Char) : Bool :=
  (List.range s.length).any fun i =>
    0 < i && (s.take i).all schemeChar &&
      decide ((s.drop i).take 3 = [':', '/', '/']) &&
      (match s.drop (i + 3) with
       | [] => false
       | c :: _ => c != '\n')

/-- The URL pattern in the words of the claim: a scheme of `[A-Za-z0-9+.-]+`
followed by `://` and at least one character (of any kind). -/
def specUrlPattern (s : List Char) : Bool :=
  (List.range s.length).any fun i =>
    0 < i && (s.take i).all schemeChar &&
      decide ((s.drop i).take 3 = [':', '/', '/']) &&
      decide (i + 3 < s.length)

/-- How `fetch_addon` dispatches a source string. -/
inductive SourceKind
  | gitUrl
  | folder
  | zipFile
  | notFound
  deriving DecidableEq

/-- The filesystem and remote world a run sees.  Functions stand for the
out-of-scope primitives: filesystem tests, the descriptor found at a
directory source, the name list and member files of a zip source, and the
whole from-version-control builder (clone + archive), which is a black box
that yields either a record or an exception. -/
structure World where
  isDir : List Char → Bool
  isFile : List Char → Bool
  dirMeta : List Char → XmlSource
  zipNames : List Char → List (List Char)
  zipMember : List Char → List Char → Option XmlSource
  gitFetch : List Char → Except PyError AddonMetadata

/-- The classification chain of `fetch_addon`: URL test first, then
existing directory, then existing file, else not found. -/
def classify_source (w : World) (loc : List Char) : SourceKind :=
  if is_url loc then .gitUrl
  else if w.isDir loc then .folder
  else if w.isFile loc then .zipFile
  else .notFound

/-! ## ArchiveBuilder result models -/

/-- First component of a path split on `os.path.sep` (`/`). -/
def firstComp (p : List Char) : List Char := p.takeWhile (fun c => c != '/')

/-- The distinct first path components of the archive's name list — the
code's `frozenset(next(iter(path.split(os.path.sep)), '') for path in
archive.namelist())`.  Only cardinality and the singleton element matter,
matching the set semantics. -/
def zipRoots (names : List (List Char)) : List (List Char) :=
  (names.map firstComp).dedup

/-- Model of `os.path.join` for one separator level. -/
def joinPath (dir name : List Char) : List Char :=
  match dir with
  | [] => name
  | _ :: _ => dir ++ '/' :: name

/-- The descriptor basename `addon.xml`. -/
def infoBasename : List Char := "addon.xml".data

/-- The claim-side reading of "contains exactly one top-level directory":
the distinct first components of names that actually descend into a
directory (contain a `/`). -/
def specTopLevelDirs (names : List (List Char)) : List (List Char) :=
  ((names.filter (fun p => p.any (fun c => c == '/'))).map firstComp).dedup

/-- Result model of `fetch_addon_from_zip`: fail with `MalformedArchive`
unless the name list has exactly one distinct first component, then read
the descriptor from `<root>/addon.xml` inside the archive (a missing member
raises an uncaught `KeyError`).  Archive copying and checksum writing are
side effects modelled separately by write traces. -/
def fetch_addon_from_zip (w : World) (loc : List Char) : Except PyError AddonMetadata :=
  match zipRoots (w.zipNames loc) with
  | [root] =>
    match w.zipMember loc (joinPath root infoBasename) with
    | none => .error .keyError
    | some src => parse_metadata src
  | _ => .error (.runtimeError .malformedArchive)

/-- Result model of `fetch_addon_from_folder`: parse the descriptor at
`<loc>/addon.xml`; archive building and metadata copying are side effects
modelled separately. -/
def fetch_addon_from_folder (w : World) (loc : List Char) : Except PyError AddonMetadata :=
  parse_metadata (w.dirMeta loc)

/-- Result model of `fetch_addon_from_git`: the clone/checkout/archive
pipeline is the external collaborator; the world says what it produces. -/
def fetch_addon_from_git (w : World) (loc : List Char) : Except PyError AddonMetadata :=
  w.gitFetch loc

/-! ## ConcurrentFetchOrchestrator -/

/-- Model of `fetch_addon`, the worker body: classify, dispatch, and catch
only `RuntimeError`, appending a `WorkerResult` to the slot.  A non-
`RuntimeError` exception escapes the thread and leaves the slot empty
(`none`). -/
def fetch_addon (w : World) (loc : List Char) : Option (Except RTMsg AddonMetadata) :=
  let r : Except PyError AddonMetadata :=
    match classify_source w loc with
    | .gitUrl => fetch_addon_from_git w loc
    | .folder => fetch_addon_from_folder w loc
    | .zipFile => fetch_addon_from_zip w loc
    | .notFound => .error (.runtimeError (.pathNotFound loc))
  match r with
  | .ok m => some (.ok m)
  | .error (.runtimeError e) => some (.error e)
  | .error _ => none

/-- The collection loop of `create_repository`: walk the slots in original
input order; an empty slot raises `Addon worker did not report result`, a
recorded failure is re-raised; otherwise the records are gathered. -/
def collect_results : List (Option (Except RTMsg AddonMetadata)) → Except RTMsg (List AddonMetadata)
  | [] => .ok []
  | none :: _ => .error .workerNoResult
  | some (.error e) :: _ => .error e
  | some (.ok m) :: rest =>
    match collect_results rest with
    | .ok ms => .ok (m :: ms)
    | .error e => .error e

/-! ## CatalogMerger -/

/-- The duplicate test of the merge loop: `addon_metadata.id == m.id and
addon_metadata.version == m.version` (version equality compares all five
fields, including build metadata). -/
def sameKey (a m : AddonMetadata) : Bool := a.id == m.id && a.version == m.version

/-- One iteration of the merge loop: find all `(id, version)` matches in
the accumulated catalog; on a match remove all of them if clobber is on,
else raise; then append the new record. -/
def merge_step (clobber : Bool) (metadata : List AddonMetadata) (a : AddonMetadata) :
    Except RTMsg (List AddonMetadata) :=
  if (metadata.filter (fun m => sameKey a m)).isEmpty then .ok (metadata ++ [a])
  else if clobber then .ok (metadata.filter (fun m => !sameKey a m) ++ [a])
  else .error .duplicateVersion

/-- The merge loop over all newly fetched records, each merged against the
growing catalog. -/
def merge_records (clobber : Bool) : List AddonMetadata → List AddonMetadata →
    Except RTMsg (List AddonMetadata)
  | metadata, [] => .ok metadata
  | metadata, a :: rest =>
    match merge_step clobber metadata a with
    | .ok md => merge_records clobber md rest
    | .error e => .error e

/-- The first sort pass: `metadata.sort(key=lambda m: m.version,
reverse=True)` — stable, descending version precedence. -/
def versionDescLe (a b : AddonMetadata) : Bool :=
  decide (b.version.precKey ≤ a.version.precKey)

/-- The second sort pass: `metadata.sort(key=lambda m: m.id)` — stable,
ascending id. -/
def idAscLe (a b : AddonMetadata) : Bool := decide (a.id ≤ b.id)

/-- The two-pass sort of `create_repository`. -/
def sort_catalog (metadata : List AddonMetadata) : List AddonMetadata :=
  isort idAscLe (isort versionDescLe metadata)

/-- The catalog and checksum files, as the record sequence each serializes
(`none` = file in its pre-run state).  Byte identity of the pre-existing
file is modelled by the state being returned untouched. -/
structure RepoFiles where
  catalog : Option (List AddonMetadata × Bool)
  checksum : Option (List AddonMetadata × Bool)
  deriving DecidableEq

/-- The final write phase: the catalog document and then its checksum are
written from the sorted sequence (the checksum marks binary mode exactly
when the catalog was gzip-compressed). -/
def write_repo (metadata : List AddonMetadata) (isCompressed : Bool) : RepoFiles :=
  { catalog := some (metadata, isCompressed), checksum := some (metadata, isCompressed) }

/-- The merge-sort-write phase of `create_repository`: merge the new records
into the pre-existing catalog under the clobber policy, sort, and only then
write the catalog and its checksum; a `DuplicateVersion` failure is raised
before any write, leaving the pre-existing files `fs0` untouched. -/
def merge_and_write (existing batch : List AddonMetadata)
    (clobber isCompressed : Bool) (fs0 : RepoFiles) : RepoFiles × Option RTMsg :=
  match merge_records clobber existing batch with
  | .error e => (fs0, some e)
  | .ok merged => (write_repo (sort_catalog merged) isCompressed, none)

/-- Model of `create_repository` after the existing catalog was parsed:
run one worker per source, join, collect in input order, then merge and
write.  Any error leaves the pre-existing files `fs0` untouched. -/
def create_repository (w : World) (locs : List (List Char))
    (existing : List AddonMetadata) (isCompressed clobber : Bool)
    (fs0 : RepoFiles) : RepoFiles × Option RTMsg :=
  match collect_results (locs.map (fetch_addon w)) with
  | .error e => (fs0, some e)
  | .ok newMeta => merge_and_write existing newMeta clobber isCompressed fs0

/-! ## Worker file side effects and schedules

Each worker writes files under its own addon directory.  A worker's writes
are a deterministic trace of (path, content) events; parallel mode executes
some interleaving of the traces that preserves each worker's internal
order, sequential mode executes them in input order, one worker after
another. -/

/-- One file write: full path and content written. -/
structure WriteEv where
  path : List Char
  data : Nat
  deriving DecidableEq

/-- Apply a trace of writes to a file state (path ↦ content), later writes
overwriting earlier ones. -/
def applyWrites : List WriteEv → (List Char → Option Nat) → (List Char → Option Nat)
  | [], f => f
  | e :: es, f => applyWrites es (fun p => if p = e.path then some e.data else f p)

/-- The traces a parallel execution can produce: an interleaving of the
per-worker queues that preserves each queue's internal order and runs every
worker to completion. -/
inductive IsSched : List (List WriteEv) → List WriteEv → Prop
  | nil {qs : List (List WriteEv)} (h : ∀ q ∈ qs, q = []) : IsSched qs []
  | step {qs : List (List WriteEv)} (i : Nat) (hi : i < qs.length) (e : WriteEv)
      (tail : List WriteEv) (rest : List WriteEv)
      (hq : qs.get ⟨i, hi⟩ = e :: tail) (hrec : IsSched (qs.set i tail) rest) :
      IsSched qs (e :: rest)

/-- The trace of sequential mode (`--no-parallel`): each worker runs to
completion before the next starts, in input order. -/
def sequentialTrace (qs : List (List WriteEv)) : List WriteEv := qs.flatten

/-- The last content written to path `p` by a trace (`none` if the trace
never writes `p`); later events shadow earlier ones. -/
def lastData (p : List Char) : List WriteEv → Option Nat
  | [] => none
  | e :: es => (lastData p es).or (if p = e.path then some e.data else none)

/-! ## Concrete worlds used as witness and failing inputs -/

/-- A world with one directory source `good` holding a well-formed
descriptor (`id=foo`, `version=1.0.0`); every other location resolves to
nothing. -/
def demoWorld : World :=
  ⟨fun l => decide (l = "good".data), fun _ => false,
   fun _ => .doc ⟨some "foo".data, some "1.0.0".data, 0⟩,
   fun _ => [], fun _ _ => none, fun _ => .error .keyError⟩

/-- A world with one directory source `addon` whose descriptor carries the
unparsable version string `borked`. -/
def badVersionWorld : World :=
  ⟨fun l => decide (l = "addon".data), fun _ => false,
   fun _ => .doc ⟨some "foo".data, some "borked".data, 0⟩,
   fun _ => [], fun _ _ => none, fun _ => .error .keyError⟩

/-- A world whose only archive source `a.zip` contains the single root
directory `myaddon` with a well-formed descriptor inside. -/
def zipDemoWorld : World :=
  ⟨fun _ => false, fun l => decide (l = "a.zip".data),
   fun _ => .ioError,
   fun _ => ["myaddon/addon.xml".data, "myaddon/icon.png".data],
   fun _ p => if p = "myaddon/addon.xml".data then
       some (.doc ⟨some "myaddon".data, some "1.0.0".data, 0⟩)
     else none,
   fun _ => .error .keyError⟩

/-- A world whose only archive source `b.zip` contains a single top-level
plain file `addon.xml` and no directory at all. -/
def zipFileOnlyWorld : World :=
  ⟨fun _ => false, fun l => decide (l = "b.zip".data),
   fun _ => .ioError,
   fun _ => ["addon.xml".data],
   fun _ _ => none,
   fun _ => .error .keyError⟩

/-! # Theorems -/

/-! ## Split/join and digit-string lemmas -/

theorem splitOnC_ne_nil (sep : Char) (s : List Char) : splitOnC sep s ≠ [] := by
  cases s with
  | nil => simp [splitOnC]
  | cons c cs =>
    simp only [splitOnC]
    cases h : splitOnC sep cs with
    | nil => simp
    | cons g gs =>
      by_cases hc : c = sep <;> simp [hc]

theorem joinSep_splitOnC (sep : Char) (s : List Char) :
    joinSep sep (splitOnC sep s) = s := by
  induction s with
  | nil => rfl
  | cons c cs ih =>
    simp only [splitOnC]
    cases h : splitOnC sep cs with
    | nil => exact absurd h (splitOnC_ne_nil sep cs)
    | cons g gs =>
      rw [h] at ih
      by_cases hc : c = sep
      · subst hc
        simp only [if_pos rfl, joinSep]
        exact congrArg (c :: ·) ih
      · simp only [if_neg hc]
        cases gs with
        | nil => simpa [joinSep] using congrArg (c :: ·) ih
        | cons g2 gs2 => simpa [joinSep] using congrArg (c :: ·) ih

theorem isDigit_toNat {c : Char} (h : c.isDigit = true) :
    48 ≤ c.toNat ∧ c.toNat ≤ 57 := by
  simp only [Char.isDigit, ge_iff_le, Bool.and_eq_true, decide_eq_true_eq] at h
  obtain ⟨h1, h2⟩ := h
  rw [UInt32.le_def, BitVec.le_def] at h1 h2
  exact ⟨h1, h2⟩

theorem digitChar10_digitVal {c : Char} (h : c.isDigit = true) :
    digitChar10 ((digitVal c).getD 0) = c := by
  have hle := isDigit_toNat h
  simp only [digitVal, h, if_pos, Option.getD_some, digitChar10]
  have : 48 + (c.toNat - 48) = c.toNat := by omega
  rw [this, Char.ofNat_toNat]

theorem digitVal_lt {c : Char} (h : c.isDigit = true) : (digitVal c).getD 0 < 10 := by
  have hle := isDigit_toNat h
  simp only [digitVal, h, if_pos, Option.getD_some]
  omega

theorem digitVal_ne_zero {c : Char} (h : c.isDigit = true) (h0 : c ≠ '0') :
    (digitVal c).getD 0 ≠ 0 := by
  have hle := isDigit_toNat h
  simp only [digitVal, h, if_pos, Option.getD_some]
  intro hz
  apply h0
  have : c.toNat = 48 := by omega
  calc c = Char.ofNat c.toNat := (Char.ofNat_toNat c).symm
    _ = '0' := by rw [this]

theorem digitsLE_eq_digits : ∀ (fuel n : Nat), n ≤ fuel → digitsLE fuel n = Nat.digits 10 n
  | 0, n, h => by
    have : n = 0 := by omega
    subst this
    simp [digitsLE]
  | fuel + 1, n, h => by
    by_cases hn : n = 0
    · subst hn; simp [digitsLE]
    · rw [digitsLE, if_neg hn,
        Nat.digits_def' (by norm_num : (1 : ℕ) < 10) (Nat.pos_of_ne_zero hn)]
      congr 1
      refine digitsLE_eq_digits fuel (n / 10) ?_
      have := Nat.div_lt_self (Nat.pos_of_ne_zero hn) (by norm_num : 1 < 10)
      omega

theorem validNumeric_cases {ds : List Char} (h : validNumeric ds = true) :
    ds = ['0'] ∨ (ds.all Char.isDigit = true ∧ ∃ d tl, ds = d :: tl ∧ d ≠ '0') := by
  unfold validNumeric at h
  rw [Bool.and_eq_true] at h
  obtain ⟨hall, hm⟩ := h
  cases ds with
  | nil => simp at hm
  | cons d tl =>
    by_cases hd : d = '0'
    · subst hd
      left
      simp only at hm
      simp [List.isEmpty_iff] at hm
      rw [hm]
    · right
      exact ⟨hall, d, tl, rfl, hd⟩

theorem natToChars_charsToNat {ds : List Char} (h : validNumeric ds = true) :
    natToChars (charsToNat ds) = ds := by
  rcases validNumeric_cases h with h0 | ⟨hall, d, tl, hds, hd0⟩
  · subst h0; decide
  · subst hds
    rw [List.all_eq_true] at hall
    set dval : Char → Nat := fun c => (digitVal c).getD 0 with hdval
    set L : List Nat := ((d :: tl).map dval).reverse with hL
    have hLne : L ≠ [] := by simp [hL]
    have hlt : ∀ l ∈ L, l < 10 := by
      intro l hl
      rw [hL, List.mem_reverse, List.mem_map] at hl
      obtain ⟨c, hc, rfl⟩ := hl
      exact digitVal_lt (hall c hc)
    have hlast : ∀ (hne : L ≠ []), L.getLast hne ≠ 0 := by
      intro hne
      have h1 : L.getLast? = some (dval d) := by
        rw [hL, List.getLast?_reverse]
        simp
      have h2 : L.getLast? = some (L.getLast hne) := List.getLast?_eq_getLast L hne
      rw [h1] at h2
      have h3 : L.getLast hne = dval d := by
        injection h2 with h2
        exact h2.symm
      rw [h3]
      exact digitVal_ne_zero (hall d (by simp)) hd0
    have hdig : Nat.digits 10 (Nat.ofDigits 10 L) = L :=
      Nat.digits_ofDigits 10 (by norm_num) L hlt hlast
    have hcn : charsToNat (d :: tl) = Nat.ofDigits 10 L := rfl
    have hn0 : Nat.ofDigits 10 L ≠ 0 := by
      intro hz
      rw [hz] at hdig
      simp only [Nat.digits_zero] at hdig
      exact hLne hdig.symm
    rw [natToChars, hcn, if_neg hn0, digitsLE_eq_digits _ _ (le_refl _), hdig, hL,
      List.reverse_reverse, List.map_map]
    have : ∀ c ∈ d :: tl, (digitChar10 ∘ dval) c = id c := by
      intro c hc
      exact digitChar10_digitVal (hall c hc)
    rw [List.map_congr_left this, List.map_id]

/-! ## Version parse/format inverse lemmas -/

theorem parsePreId_chars {g : List Char} {p : PreId} (h : parsePreId g = some p) :
    p.chars = g := by
  unfold parsePreId at h
  split at h
  · exact absurd h (by simp)
  · split at h
    · split at h
      · injection h with h
        subst h
        simpa [PreId.chars] using natToChars_charsToNat (by assumption)
      · exact absurd h (by simp)
    · split at h
      · injection h with h
        subst h
        rfl
      · exact absurd h (by simp)

theorem parsePreList_chars {gs : List (List Char)} {ps : List PreId}
    (h : parsePreList gs = some ps) : ps.map PreId.chars = gs := by
  induction gs generalizing ps with
  | nil =>
    unfold parsePreList at h
    injection h with h
    subst h
    rfl
  | cons g rest ih =>
    unfold parsePreList at h
    split at h
    · next p ps' hp hps =>
      injection h with h
      subst h
      simp only [List.map_cons]
      rw [parsePreId_chars hp, ih hps]
    · exact absurd h (by simp)

theorem joinSep_cons_cons (sep : Char) (g : List Char) (g2 : List Char) (gs : List (List Char)) :
    joinSep sep (g :: g2 :: gs) = g ++ sep :: joinSep sep (g2 :: gs) := rfl

theorem parseVerCore_formatCore {core : List Char} {bs : List (List Char)} {v : SemVer}
    (h : parseVerCore core bs = some v) : formatCore v = core ∧ v.build = bs := by
  unfold parseVerCore at h
  cases hsplit : splitOnC '-' core with
  | nil => rw [hsplit] at h; exact absurd h (by simp)
  | cons nums rest =>
    rw [hsplit] at h
    have hcore : joinSep '-' (nums :: rest) = core := by
      rw [← hsplit]; exact joinSep_splitOnC '-' core
    have main : ∀ (pre : List PreId),
        ((match splitOnC '.' nums with
          | [ma, mi, pa] =>
            if (validNumeric ma && validNumeric mi && validNumeric pa) = true then
              some (⟨charsToNat ma, charsToNat mi, charsToNat pa, pre, bs⟩ : SemVer)
            else none
          | _ => none) = some v) →
        v.pre = pre ∧ v.build = bs ∧
          natToChars v.major ++ '.' :: natToChars v.minor ++ '.' :: natToChars v.patch = nums := by
      intro pre hm
      cases hnums : splitOnC '.' nums with
      | nil => rw [hnums] at hm; exact absurd hm (by simp)
      | cons ma tl1 =>
        rw [hnums] at hm
        cases tl1 with
        | nil => exact absurd hm (by simp)
        | cons mi tl2 =>
          cases tl2 with
          | nil => exact absurd hm (by simp)
          | cons pa tl3 =>
            cases tl3 with
            | cons q qs => exact absurd hm (by simp)
            | nil =>
              rw [show (match [ma, mi, pa] with
                  | [ma, mi, pa] =>
                    if (validNumeric ma && validNumeric mi && validNumeric pa) = true then
                      some (⟨charsToNat ma, charsToNat mi, charsToNat pa, pre, bs⟩ : SemVer)
                    else none
                  | _ => none) =
                  (if (validNumeric ma && validNumeric mi && validNumeric pa) = true then
                    some (⟨charsToNat ma, charsToNat mi, charsToNat pa, pre, bs⟩ : SemVer)
                  else none) from rfl] at hm
              split at hm
              · next hvalid =>
                simp only [Bool.and_eq_true] at hvalid
                obtain ⟨⟨hma, hmi⟩, hpa⟩ := hvalid
                injection hm with hm
                subst hm
                refine ⟨rfl, rfl, ?_⟩
                simp only
                rw [natToChars_charsToNat hma, natToChars_charsToNat hmi,
                  natToChars_charsToNat hpa]
                have hn : joinSep '.' [ma, mi, pa] = nums := by
                  rw [← hnums]; exact joinSep_splitOnC '.' nums
                simpa [joinSep] using hn
              · exact absurd hm (by simp)
    cases rest with
    | nil =>
      simp only at h
      obtain ⟨hpre, hb, hn⟩ := main [] h
      refine ⟨?_, hb⟩
      simp only [formatCore, hpre]
      simp only [joinSep] at hcore
      rw [hn.symm] at hcore
      simpa using hcore
    | cons r rs =>
      simp only at h
      cases hpl : parsePreList (splitOnC '.' (joinSep '-' (r :: rs))) with
      | none => rw [hpl] at h; exact absurd h (by simp)
      | some pre =>
        rw [hpl] at h
        simp only at h
        obtain ⟨hpre, hb, hn⟩ := main pre h
        refine ⟨?_, hb⟩
        have hmap : pre.map PreId.chars = splitOnC '.' (joinSep '-' (r :: rs)) :=
          parsePreList_chars hpl
        have hprene : pre ≠ [] := by
          intro hz
          rw [hz] at hmap
          exact splitOnC_ne_nil '.' (joinSep '-' (r :: rs)) hmap.symm
        simp only [formatCore, hpre]
        cases hprec : pre with
        | nil => exact absurd hprec hprene
        | cons p ps =>
          simp only
          rw [← hprec, hmap, joinSep_splitOnC]
          rw [joinSep_cons_cons] at hcore
          rw [← hcore, hn.symm]

theorem parseSemVer_formatSemVer {s : List Char} {v : SemVer}
    (h : parseSemVer s = some v) : formatSemVer v = s := by
  unfold parseSemVer at h
  cases hsplit : splitOnC '+' s with
  | nil => rw [hsplit] at h; exact absurd h (by simp)
  | cons core tl =>
    rw [hsplit] at h
    have hs : joinSep '+' (core :: tl) = s := by
      rw [← hsplit]; exact joinSep_splitOnC '+' s
    cases tl with
    | nil =>
      simp only at h
      obtain ⟨hc, hb⟩ := parseVerCore_formatCore h
      simp only [joinSep] at hs
      rw [formatSemVer, hb, hc]
      simpa using hs
    | cons b tl2 =>
      cases tl2 with
      | nil =>
        simp only at h
        split at h
        · next hvalid =>
          obtain ⟨hc, hb⟩ := parseVerCore_formatCore h
          have hbne : splitOnC '.' b ≠ [] := splitOnC_ne_nil '.' b
          rw [formatSemVer, hb, hc]
          cases hbs : splitOnC '.' b with
          | nil => exact absurd hbs hbne
          | cons g gs =>
            simp only
            rw [← hbs, joinSep_splitOnC]
            rw [joinSep_cons_cons] at hs
            simp only [joinSep] at hs
            exact hs
        · exact absurd h (by simp)
      | cons c tl3 => exact absurd h (by simp)

theorem hyphenToTilde_tildeToHyphen {s : List Char} (h : '-' ∉ s) :
    hyphenToTilde (tildeToHyphen s) = s := by
  unfold hyphenToTilde tildeToHyphen
  rw [List.map_map]
  have hc : ∀ c ∈ s,
      ((fun c => if c = '-' then '~' else c) ∘ fun c => if c = '~' then '-' else c) c = id c := by
    intro c hcs
    have hne : c ≠ '-' := fun hcc => h (hcc ▸ hcs)
    by_cases h1 : c = '~'
    · subst h1; simp
    · simp [Function.comp, h1, hne]
  rw [List.map_congr_left hc, List.map_id]

/-! ## Claim C5 -/

/-- Claim C5 (amended): for every valid version string that uses a tilde as
the pre-release separator AND contains no hyphen character, formatting the
parsed version yields the string back exactly.  (As stated the claim fails:
a hyphen inside a pre-release identifier is also rewritten to a tilde by the
formatter, see the counterexample.) -/
theorem version_tilde_round_trip {s : List Char} {v : SemVer}
    (hp : AddonVersion.parse s = some v) (hh : '-' ∉ s) :
    AddonVersion.str v = s := by
  unfold AddonVersion.parse at hp
  unfold AddonVersion.str
  rw [parseSemVer_formatSemVer hp]
  exact hyphenToTilde_tildeToHyphen hh

/-- Witness for C5: a concrete tilde pre-release version string round-trips. -/
theorem version_tilde_round_trip_witness :
    AddonVersion.parse "1.2.3~beta.2".data =
      some ⟨1, 2, 3, [.alnum "beta".data, .num 2], []⟩ ∧
    AddonVersion.str ⟨1, 2, 3, [.alnum "beta".data, .num 2], []⟩ =
      "1.2.3~beta.2".data :=
  ⟨by decide, version_tilde_round_trip (by decide) (by decide)⟩

/-- Counterexample for C5 as stated: the string `1.0.0~alpha-1` is a valid
version string whose pre-release separator is a tilde, but formatting the
parsed version yields `1.0.0~alpha~1 ≠ 1.0.0~alpha-1`, because `__str__`
rewrites every hyphen — including the one inside the identifier. -/
theorem version_tilde_round_trip_counterexample :
    AddonVersion.parse "1.0.0~alpha-1".data =
      some ⟨1, 0, 0, [.alnum "alpha-1".data], []⟩ ∧
    AddonVersion.str ⟨1, 0, 0, [.alnum "alpha-1".data], []⟩ ≠
      "1.0.0~alpha-1".data := by
  exact ⟨by decide, by decide⟩

/-! ## Stable sort lemmas -/

theorem insertLe_perm (le : α → α → Bool) (x : α) (l : List α) :
    (insertLe le x l).Perm (x :: l) := by
  induction l with
  | nil => exact List.Perm.refl _
  | cons y ys ih =>
    unfold insertLe
    by_cases h : le x y
    · simp [h]
    · simp only [if_neg h]
      exact (ih.cons y).trans (List.Perm.swap x y ys)

theorem isort_perm (le : α → α → Bool) (l : List α) : (isort le l).Perm l := by
  induction l with
  | nil => exact List.Perm.refl _
  | cons x xs ih =>
    unfold isort
    exact (insertLe_perm le x (isort le xs)).trans (ih.cons x)

theorem mem_insertLe {le : α → α → Bool} {x a : α} {l : List α}
    (h : a ∈ insertLe le x l) : a = x ∨ a ∈ l :=
  by simpa using (insertLe_perm le x l).mem_iff.mp h

theorem pairwise_insertLe {le : α → α → Bool}
    (htot : ∀ a b, le a b = true ∨ le b a = true)
    (htr : ∀ a b c, le a b = true → le b c = true → le a c = true)
    (x : α) {l : List α} (hl : l.Pairwise (fun a b => le a b = true)) :
    (insertLe le x l).Pairwise (fun a b => le a b = true) := by
  induction l with
  | nil => simp [insertLe]
  | cons y ys ih =>
    rw [List.pairwise_cons] at hl
    obtain ⟨hy, hys⟩ := hl
    unfold insertLe
    by_cases h : le x y
    · rw [if_pos h]
      refine List.Pairwise.cons ?_ (List.Pairwise.cons hy hys)
      intro a ha
      rcases List.mem_cons.mp ha with hay | ha
      · subst hay
        exact h
      · exact htr x y a h (hy a ha)
    · rw [if_neg h]
      refine List.Pairwise.cons ?_ (ih hys)
      intro a ha
      rcases mem_insertLe ha with hax | ha
      · subst hax
        rcases htot a y with h1 | h1
        · exact absurd h1 (by simpa using h)
        · exact h1
      · exact hy a ha

theorem pairwise_isort {le : α → α → Bool}
    (htot : ∀ a b, le a b = true ∨ le b a = true)
    (htr : ∀ a b c, le a b = true → le b c = true → le a c = true)
    (l : List α) : (isort le l).Pairwise (fun a b => le a b = true) := by
  induction l with
  | nil => simp [isort]
  | cons x xs ih => exact pairwise_insertLe htot htr x ih

theorem filter_insertLe {le : α → α → Bool} {p : α → Bool}
    (hp : ∀ a b, p a = true → p b = true → le a b = true)
    (x : α) (l : List α) :
    (insertLe le x l).filter p = if p x then x :: l.filter p else l.filter p := by
  induction l with
  | nil => cases hx : p x <;> simp [insertLe, List.filter, hx]
  | cons y ys ih =>
    unfold insertLe
    by_cases h : le x y
    · rw [if_pos h]
      cases hx : p x <;> simp [List.filter, hx]
    · rw [if_neg h]
      cases hx : p x
      · cases hy : p y <;> simp [List.filter, hy, hx, ih]
      · have hy : p y = false := by
          cases hy : p y
          · rfl
          · exact absurd (hp x y hx hy) (by simpa using h)
        simp [List.filter, hy, hx, ih]

theorem filter_isort {le : α → α → Bool} {p : α → Bool}
    (hp : ∀ a b, p a = true → p b = true → le a b = true)
    (l : List α) : (isort le l).filter p = l.filter p := by
  induction l with
  | nil => rfl
  | cons x xs ih =>
    unfold isort
    rw [filter_insertLe hp]
    cases hx : p x <;> simp [List.filter, hx, ih]

theorem idAscLe_total (a b : AddonMetadata) : idAscLe a b = true ∨ idAscLe b a = true := by
  unfold idAscLe
  rcases le_total a.id b.id with h | h
  · exact Or.inl (decide_eq_true h)
  · exact Or.inr (decide_eq_true h)

theorem idAscLe_trans (a b c : AddonMetadata) (h1 : idAscLe a b = true)
    (h2 : idAscLe b c = true) : idAscLe a c = true := by
  unfold idAscLe at h1 h2 ⊢
  exact decide_eq_true (le_trans (of_decide_eq_true h1) (of_decide_eq_true h2))

theorem versionDescLe_total (a b : AddonMetadata) :
    versionDescLe a b = true ∨ versionDescLe b a = true := by
  unfold versionDescLe
  rcases le_total b.version.precKey a.version.precKey with h | h
  · exact Or.inl (decide_eq_true h)
  · exact Or.inr (decide_eq_true h)

theorem versionDescLe_trans (a b c : AddonMetadata) (h1 : versionDescLe a b = true)
    (h2 : versionDescLe b c = true) : versionDescLe a c = true := by
  unfold versionDescLe at h1 h2 ⊢
  exact decide_eq_true (le_trans (of_decide_eq_true h2) (of_decide_eq_true h1))

/-- Claim C2: in a merged catalog as serialized (the two-pass sort of
`create_repository`), whenever record `a` precedes record `b`: if they share
an id, `b`'s version precedence does not exceed `a`'s (higher versions come
first within an id); if their ids differ, `a`'s id is lexicographically
smaller (ascending id is the dominant key). -/
theorem merged_catalog_sort_order {l : List AddonMetadata} {a b : AddonMetadata}
    (hs : List.Sublist [a, b] (sort_catalog l)) :
    (a.id = b.id → b.version.precKey ≤ a.version.precKey) ∧
    (a.id ≠ b.id → a.id < b.id) := by
  have hid : idAscLe a b = true := by
    have hp : (sort_catalog l).Pairwise (fun x y => idAscLe x y = true) :=
      pairwise_isort idAscLe_total idAscLe_trans _
    exact List.pairwise_iff_forall_sublist.mp hp hs
  constructor
  · intro hab
    set p : AddonMetadata → Bool := fun m => decide (m.id = a.id) with hpdef
    have hpa : p a = true := by simp [hpdef]
    have hpb : p b = true := by simp [hpdef, ← hab]
    have hcompat : ∀ x y, p x = true → p y = true → idAscLe x y = true := by
      intro x y hx hy
      simp only [hpdef, decide_eq_true_eq] at hx hy
      unfold idAscLe
      rw [hx, hy]
      exact decide_eq_true (le_refl _)
    have hstab : (sort_catalog l).filter p = (isort versionDescLe l).filter p := by
      unfold sort_catalog
      exact filter_isort hcompat _
    have hsub2 : List.Sublist [a, b] ((isort versionDescLe l).filter p) := by
      rw [← hstab]
      have h2 : List.Sublist ([a, b].filter p) ((sort_catalog l).filter p) :=
        hs.filter p
      simpa [List.filter, hpa, hpb] using h2
    have hpw : ((isort versionDescLe l).filter p).Pairwise
        (fun x y => versionDescLe x y = true) :=
      List.Pairwise.sublist (List.filter_sublist _)
        (pairwise_isort versionDescLe_total versionDescLe_trans l)
    have hv : versionDescLe a b = true :=
      List.pairwise_iff_forall_sublist.mp hpw hsub2
    exact of_decide_eq_true hv
  · intro hne
    exact lt_of_le_of_ne (of_decide_eq_true hid) hne

/-- Witness for C2: in a concrete catalog of three records (`foo` 1.0.0,
`bar` 1.0.0, `foo` 2.0.0), after sorting, `foo` 2.0.0 precedes `foo` 1.0.0
and the version precedence conclusion follows from the claim theorem. -/
theorem merged_catalog_sort_order_witness :
    List.Sublist
      [(⟨"foo".data, ⟨2, 0, 0, [], []⟩, ⟨some "foo".data, none, 0⟩⟩ : AddonMetadata),
       (⟨"foo".data, ⟨1, 0, 0, [], []⟩, ⟨some "foo".data, none, 1⟩⟩ : AddonMetadata)]
      (sort_catalog
        [⟨"foo".data, ⟨1, 0, 0, [], []⟩, ⟨some "foo".data, none, 1⟩⟩,
         ⟨"bar".data, ⟨1, 0, 0, [], []⟩, ⟨some "bar".data, none, 2⟩⟩,
         ⟨"foo".data, ⟨2, 0, 0, [], []⟩, ⟨some "foo".data, none, 0⟩⟩]) ∧
    (⟨1, 0, 0, [], []⟩ : SemVer).precKey ≤ (⟨2, 0, 0, [], []⟩ : SemVer).precKey := by
  refine ⟨by decide, ?_⟩
  exact (@merged_catalog_sort_order
    [⟨"foo".data, ⟨1, 0, 0, [], []⟩, ⟨some "foo".data, none, 1⟩⟩,
     ⟨"bar".data, ⟨1, 0, 0, [], []⟩, ⟨some "bar".data, none, 2⟩⟩,
     ⟨"foo".data, ⟨2, 0, 0, [], []⟩, ⟨some "foo".data, none, 0⟩⟩]
    ⟨"foo".data, ⟨2, 0, 0, [], []⟩, ⟨some "foo".data, none, 0⟩⟩
    ⟨"foo".data, ⟨1, 0, 0, [], []⟩, ⟨some "foo".data, none, 1⟩⟩
    (by decide)).1 rfl

/-! ## Merge-loop lemmas -/

theorem sameKey_iff {a b : AddonMetadata} :
    sameKey a b = true ↔ a.id = b.id ∧ a.version = b.version := by
  unfold sameKey
  simp

theorem sameKey_self (a : AddonMetadata) : sameKey a a = true :=
  sameKey_iff.mpr ⟨rfl, rfl⟩

theorem sameKey_of_sameKey {a r m : AddonMetadata} (har : sameKey a r = false)
    (hrm : sameKey r m = true) : sameKey a m = false := by
  cases h : sameKey a m
  · rfl
  · exfalso
    obtain ⟨h1, h2⟩ := sameKey_iff.mp h
    obtain ⟨h3, h4⟩ := sameKey_iff.mp hrm
    have : sameKey a r = true := sameKey_iff.mpr ⟨h1.trans h3.symm, h2.trans h4.symm⟩
    rw [this] at har
    cases har

theorem sameKey_symm_false {a b : AddonMetadata} (h : sameKey a b = false) :
    sameKey b a = false := by
  cases hc : sameKey b a
  · rfl
  · obtain ⟨h1, h2⟩ := sameKey_iff.mp hc
    have : sameKey a b = true := sameKey_iff.mpr ⟨h1.symm, h2.symm⟩
    rw [this] at h
    cases h

theorem merge_step_clobber_filter (acc : List AddonMetadata) (a : AddonMetadata) :
    ∃ acc2, merge_step true acc a = .ok acc2 ∧
      acc2.filter (fun m => sameKey a m) = [a] := by
  unfold merge_step
  by_cases hm : (acc.filter (fun m => sameKey a m)).isEmpty
  · refine ⟨acc ++ [a], by rw [if_pos hm], ?_⟩
    rw [List.filter_append]
    rw [List.isEmpty_iff] at hm
    rw [hm]
    simp [sameKey_self]
  · refine ⟨acc.filter (fun m => !sameKey a m) ++ [a], by rw [if_neg hm, if_pos rfl], ?_⟩
    rw [List.filter_append, List.filter_filter]
    have hz : acc.filter (fun m => sameKey a m && !sameKey a m) = [] := by
      apply List.filter_eq_nil_iff.mpr
      intro m _
      cases sameKey a m <;> simp
    rw [hz]
    simp [sameKey_self]

theorem merge_records_filter_invariant {r : AddonMetadata} :
    ∀ {batch acc merged : List AddonMetadata},
      (∀ r2 ∈ batch, sameKey r2 r = false) →
      merge_records true acc batch = .ok merged →
      merged.filter (fun m => sameKey r m) = acc.filter (fun m => sameKey r m) := by
  intro batch
  induction batch with
  | nil =>
    intro acc merged _ hm
    unfold merge_records at hm
    injection hm with hm
    rw [hm]
  | cons a rest ih =>
    intro acc merged hall hm
    have har : sameKey a r = false := hall a (by simp)
    have hra : sameKey r a = false := sameKey_symm_false har
    have hrest : ∀ r2 ∈ rest, sameKey r2 r = false := by
      intro r2 h2
      exact hall r2 (by simp [h2])
    unfold merge_records at hm
    by_cases he : (acc.filter (fun m => sameKey a m)).isEmpty
    · have hstep : merge_step true acc a = .ok (acc ++ [a]) := by
        unfold merge_step
        rw [if_pos he]
      rw [hstep] at hm
      rw [ih hrest hm, List.filter_append]
      have h1 : [a].filter (fun m => sameKey r m) = [] := by
        simp [List.filter, hra]
      rw [h1, List.append_nil]
    · have hstep : merge_step true acc a =
          .ok (acc.filter (fun m => !sameKey a m) ++ [a]) := by
        unfold merge_step
        rw [if_neg he]
        simp
      rw [hstep] at hm
      rw [ih hrest hm, List.filter_append]
      have h1 : [a].filter (fun m => sameKey r m) = [] := by
        simp [List.filter, hra]
      rw [h1, List.append_nil, List.filter_filter]
      apply List.filter_congr
      intro m _
      cases hc : sameKey r m
      · simp
      · have : sameKey a m = false := sameKey_of_sameKey har hc
        simp [this]

theorem merge_records_clobber_ok (acc batch : List AddonMetadata) :
    ∃ merged, merge_records true acc batch = .ok merged := by
  induction batch generalizing acc with
  | nil => exact ⟨acc, rfl⟩
  | cons a rest ih =>
    obtain ⟨acc2, hstep, _⟩ := merge_step_clobber_filter acc a
    unfold merge_records
    rw [hstep]
    exact ih acc2

theorem merge_records_noclobber_error {r : AddonMetadata} :
    ∀ {batch existing : List AddonMetadata}, r ∈ batch →
      (∃ m ∈ existing, sameKey r m = true) →
      merge_records false existing batch = .error .duplicateVersion := by
  intro batch
  induction batch with
  | nil =>
    intro existing hr
    cases hr
  | cons a rest ih =>
    intro existing hr hex
    unfold merge_records
    by_cases he : (existing.filter (fun m => sameKey a m)).isEmpty
    · have hstep : merge_step false existing a = .ok (existing ++ [a]) := by
        unfold merge_step
        rw [if_pos he]
      rw [hstep]
      have hne : r ≠ a := by
        rintro rfl
        obtain ⟨m, hmem, hkey⟩ := hex
        rw [List.isEmpty_iff] at he
        have hcontra : m ∈ existing.filter (fun m => sameKey r m) :=
          List.mem_filter.mpr ⟨hmem, hkey⟩
        rw [he] at hcontra
        cases hcontra
      have hr2 : r ∈ rest := by
        rcases List.mem_cons.mp hr with h | h
        · exact absurd h hne
        · exact h
      apply ih hr2
      obtain ⟨m, hmem, hkey⟩ := hex
      exact ⟨m, List.mem_append_left _ hmem, hkey⟩
    · have hstep : merge_step false existing a = .error .duplicateVersion := by
        unfold merge_step
        rw [if_neg he]
        simp
      rw [hstep]

theorem merge_records_clobber_key_unique {r : AddonMetadata} :
    ∀ {batch acc merged : List AddonMetadata}, r ∈ batch →
      (∀ r2 ∈ batch, r2 ≠ r → sameKey r2 r = false) →
      merge_records true acc batch = .ok merged →
      merged.filter (fun m => sameKey r m) = [r] := by
  intro batch
  induction batch with
  | nil =>
    intro acc merged hr
    cases hr
  | cons a rest ih =>
    intro acc merged hr huniq hm
    obtain ⟨acc2, hstep, hfilter⟩ := merge_step_clobber_filter acc a
    unfold merge_records at hm
    rw [hstep] at hm
    by_cases hrr : r ∈ rest
    · refine ih hrr ?_ hm
      intro r2 h2 hne
      exact huniq r2 (by simp [h2]) hne
    · have hra : r = a := by
        rcases List.mem_cons.mp hr with h | h
        · exact h
        · exact absurd h hrr
      subst hra
      have hnone : ∀ r2 ∈ rest, sameKey r2 r = false := by
        intro r2 h2
        by_cases hne : r2 = r
        · subst hne
          exact absurd h2 hrr
        · exact huniq r2 (by simp [h2]) hne
      rw [merge_records_filter_invariant hnone hm]
      exact hfilter

/-! ## Claims C1 and C9 -/

/-- Claim C1: merging a new record whose `(id, version)` equals an existing
catalog entry.  With clobber disabled the whole merge fails with
`DuplicateVersion` and the pre-existing catalog and checksum files are
returned untouched (no write occurs); with clobber enabled the merge
succeeds and the serialized (sorted) catalog contains exactly one record
with that `(id, version)` — the new one. -/
theorem merge_duplicate_version_policy {existing batch : List AddonMetadata}
    {r : AddonMetadata} {isCompressed : Bool} {fs0 : RepoFiles}
    (hex : ∃ m ∈ existing, sameKey r m = true)
    (hr : r ∈ batch)
    (huniq : ∀ r2 ∈ batch, r2 ≠ r → sameKey r2 r = false) :
    merge_and_write existing batch false isCompressed fs0 =
      (fs0, some .duplicateVersion) ∧
    ∃ merged, merge_records true existing batch = .ok merged ∧
      merge_and_write existing batch true isCompressed fs0 =
        (write_repo (sort_catalog merged) isCompressed, none) ∧
      (sort_catalog merged).filter (fun m => sameKey r m) = [r] := by
  constructor
  · unfold merge_and_write
    rw [merge_records_noclobber_error hr hex]
  · obtain ⟨merged, hm⟩ := merge_records_clobber_ok existing batch
    refine ⟨merged, hm, ?_, ?_⟩
    · unfold merge_and_write
      rw [hm]
    · have h1 : merged.filter (fun m => sameKey r m) = [r] :=
        merge_records_clobber_key_unique hr huniq hm
    
      have hperm : (sort_catalog merged).Perm merged := by
        unfold sort_catalog
        exact (isort_perm _ _).trans (isort_perm _ _)
      have h2 := hperm.filter (fun m => sameKey r m)
      rw [h1] at h2
      exact List.perm_singleton.mp h2

/-- Witness for C1: re-adding `foo` 1.0.0 (fresh payload 8) over a catalog
holding `foo` 1.0.0 (payload 7): clobber off fails with `DuplicateVersion`
leaving the files untouched; clobber on leaves exactly the new record under
that key. -/
theorem merge_duplicate_version_policy_witness :
    merge_and_write [⟨"foo".data, ⟨1, 0, 0, [], []⟩, ⟨some "foo".data, none, 7⟩⟩]
        [⟨"foo".data, ⟨1, 0, 0, [], []⟩, ⟨some "foo".data, none, 8⟩⟩] false false
        ⟨none, none⟩ =
      (⟨none, none⟩, some .duplicateVersion) ∧
    ∃ merged,
      merge_records true [⟨"foo".data, ⟨1, 0, 0, [], []⟩, ⟨some "foo".data, none, 7⟩⟩]
          [⟨"foo".data, ⟨1, 0, 0, [], []⟩, ⟨some "foo".data, none, 8⟩⟩] = .ok merged ∧
      merge_and_write [⟨"foo".data, ⟨1, 0, 0, [], []⟩, ⟨some "foo".data, none, 7⟩⟩]
          [⟨"foo".data, ⟨1, 0, 0, [], []⟩, ⟨some "foo".data, none, 8⟩⟩] true false
          ⟨none, none⟩ =
        (write_repo (sort_catalog merged) false, none) ∧
      (sort_catalog merged).filter
          (fun m => sameKey ⟨"foo".data, ⟨1, 0, 0, [], []⟩, ⟨some "foo".data, none, 8⟩⟩ m) =
        [⟨"foo".data, ⟨1, 0, 0, [], []⟩, ⟨some "foo".data, none, 8⟩⟩] :=
  @merge_duplicate_version_policy
    [⟨"foo".data, ⟨1, 0, 0, [], []⟩, ⟨some "foo".data, none, 7⟩⟩]
    [⟨"foo".data, ⟨1, 0, 0, [], []⟩, ⟨some "foo".data, none, 8⟩⟩]
    ⟨"foo".data, ⟨1, 0, 0, [], []⟩, ⟨some "foo".data, none, 8⟩⟩ false ⟨none, none⟩
    (by decide) (by decide) (by decide)

/-- Claim C9: two records of one batch that share an `(id, version)` absent
from the pre-existing catalog are still subject to the duplicate policy
against each other, because each new record is merged against the growing
catalog: under no-clobber the second fails the whole merge with
`DuplicateVersion`; under clobber the second removes the first and remains
the only record under that key. -/
theorem intra_batch_duplicate_policy {existing : List AddonMetadata}
    {r1 r2 : AddonMetadata}
    (hk : sameKey r2 r1 = true)
    (hex1 : ∀ m ∈ existing, sameKey r1 m = false) :
    merge_records false existing [r1, r2] = .error .duplicateVersion ∧
    ∃ merged, merge_records true existing [r1, r2] = .ok merged ∧
      merged.filter (fun m => sameKey r2 m) = [r2] := by
  have hfe : (existing.filter (fun m => sameKey r1 m)).isEmpty = true := by
    rw [List.isEmpty_iff]
    apply List.filter_eq_nil_iff.mpr
    intro m hm
    simp [hex1 m hm]
  have hne2 : ((existing ++ [r1]).filter (fun m => sameKey r2 m)).isEmpty = false := by
    have hmem : r1 ∈ (existing ++ [r1]).filter (fun m => sameKey r2 m) :=
      List.mem_filter.mpr ⟨List.mem_append_right _ (by simp), hk⟩
    rcases hf : (existing ++ [r1]).filter (fun m => sameKey r2 m) with _ | ⟨x, xs⟩
    · rw [hf] at hmem
      cases hmem
    · rfl
  constructor
  · have hstep1 : merge_step false existing r1 = .ok (existing ++ [r1]) := by
      unfold merge_step
      rw [if_pos hfe]
    have hstep2 : merge_step false (existing ++ [r1]) r2 = .error .duplicateVersion := by
      unfold merge_step
      rw [if_neg (by rw [hne2]; decide)]
      simp
    unfold merge_records
    rw [hstep1]
    unfold merge_records
    rw [hstep2]
  · obtain ⟨acc2, hstep, hfilter⟩ := merge_step_clobber_filter (existing ++ [r1]) r2
    have hstep1 : merge_step true existing r1 = .ok (existing ++ [r1]) := by
      unfold merge_step
      rw [if_pos hfe]
    refine ⟨acc2, ?_, hfilter⟩
    unfold merge_records
    rw [hstep1]
    unfold merge_records
    rw [hstep]
    rfl

/-- Witness for C9: a batch `[foo 1.0.0 (payload 1), foo 1.0.0 (payload 2)]`
over an empty catalog: no-clobber fails with `DuplicateVersion`, clobber
keeps exactly the second record. -/
theorem intra_batch_duplicate_policy_witness :
    merge_records false []
        [⟨"foo".data, ⟨1, 0, 0, [], []⟩, ⟨some "foo".data, none, 1⟩⟩,
         ⟨"foo".data, ⟨1, 0, 0, [], []⟩, ⟨some "foo".data, none, 2⟩⟩] =
      .error .duplicateVersion ∧
    ∃ merged,
      merge_records true []
          [⟨"foo".data, ⟨1, 0, 0, [], []⟩, ⟨some "foo".data, none, 1⟩⟩,
           ⟨"foo".data, ⟨1, 0, 0, [], []⟩, ⟨some "foo".data, none, 2⟩⟩] = .ok merged ∧
      merged.filter
          (fun m => sameKey ⟨"foo".data, ⟨1, 0, 0, [], []⟩, ⟨some "foo".data, none, 2⟩⟩ m) =
        [⟨"foo".data, ⟨1, 0, 0, [], []⟩, ⟨some "foo".data, none, 2⟩⟩] :=
  @intra_batch_duplicate_policy []
    ⟨"foo".data, ⟨1, 0, 0, [], []⟩, ⟨some "foo".data, none, 1⟩⟩
    ⟨"foo".data, ⟨1, 0, 0, [], []⟩, ⟨some "foo".data, none, 2⟩⟩
    (by decide) (by decide)

/-! ## Collection order: claims C3 and C4 -/

theorem collect_results_first_error :
    ∀ {slots : List (Option (Except RTMsg AddonMetadata))} {i : Nat} {e : RTMsg}
      (hi : i < slots.length),
      slots.get ⟨i, hi⟩ = some (.error e) →
      (∀ j (hj : j < slots.length), j < i → ∃ m, slots.get ⟨j, hj⟩ = some (.ok m)) →
      collect_results slots = .error e := by
  intro slots
  induction slots with
  | nil =>
    intro i e hi
    exact absurd hi (by simp)
  | cons s rest ih =>
    intro i e hi hfail hok
    cases i with
    | zero =>
      simp only [List.get] at hfail
      rw [hfail]
      rfl
    | succ i2 =>
      obtain ⟨m, hm⟩ := hok 0 (by simp) (by omega)
      simp only [List.get] at hm
      rw [hm]
      have htail : collect_results rest = .error e := by
        refine ih (by simpa using hi) ?_ ?_
        · simpa using hfail
        · intro j hj hji
          have := hok (j + 1) (by simpa using hj) (by omega)
          simpa using this
      unfold collect_results
      rw [htail]

/-- Claim C3: when every worker has recorded an outcome and at least one
recorded a failure, every worker's result slot is still computed (the join
barrier runs all workers), and the orchestrator's overall result is the
error of the first failing worker in original input order; the merge and
write phases never run, the pre-existing files are untouched. -/
theorem orchestrator_first_failure_in_input_order {w : World}
    {locs : List (List Char)} {existing : List AddonMetadata}
    {isCompressed clobber : Bool} {fs0 : RepoFiles} {i : Nat} {e : RTMsg}
    (hi : i < (locs.map (fetch_addon w)).length)
    (hfail : (locs.map (fetch_addon w)).get ⟨i, hi⟩ = some (.error e))
    (hok : ∀ j (hj : j < (locs.map (fetch_addon w)).length), j < i →
      ∃ m, (locs.map (fetch_addon w)).get ⟨j, hj⟩ = some (.ok m)) :
    create_repository w locs existing isCompressed clobber fs0 = (fs0, some e) ∧
    (∀ j (hj : j < locs.length),
      (locs.map (fetch_addon w)).get ⟨j, by simpa using hj⟩ =
        fetch_addon w (locs.get ⟨j, hj⟩)) := by
  constructor
  · unfold create_repository
    rw [collect_results_first_error hi hfail hok]
  · intro j hj
    simp

/-- Witness for C3: three sources — `good` succeeds, `missing1` and
`missing2` both fail with path-not-found; the overall result carries
`missing1`'s error, the first failure in input order. -/
theorem orchestrator_first_failure_witness :
    create_repository demoWorld ["good".data, "missing1".data, "missing2".data]
        [] false false ⟨none, none⟩ =
      (⟨none, none⟩, some (.pathNotFound "missing1".data)) :=
  (@orchestrator_first_failure_in_input_order demoWorld
    ["good".data, "missing1".data, "missing2".data] [] false false ⟨none, none⟩
    1 (.pathNotFound "missing1".data)
    (by decide) (by rfl)
    (by
      intro j hj hji
      have hj0 : j = 0 := by omega
      subst hj0
      exact ⟨⟨"foo".data, ⟨1, 0, 0, [], []⟩,
        ⟨some "foo".data, some "1.0.0".data, 0⟩⟩, by rfl⟩)).1

/-- Claim C4 (code bug): `fetch_addon` catches only `RuntimeError`, but an
unparsable version string raises `ValueError` inside `parse_metadata`
(`AddonVersion` delegates to `semantic_version`), so the worker thread dies
without recording any outcome; the orchestrator then fails with the fatal
`Addon worker did not report result` (WorkerReportMissing) instead of
capturing `MalformedVersion` as that worker's failing outcome. -/
theorem worker_unparsable_version_not_captured :
    parse_metadata (badVersionWorld.dirMeta "addon".data) = .error .valueError ∧
    fetch_addon badVersionWorld "addon".data = none ∧
    collect_results (["addon".data].map (fetch_addon badVersionWorld)) =
      .error .workerNoResult ∧
    create_repository badVersionWorld ["addon".data] [] false false ⟨none, none⟩ =
      (⟨none, none⟩, some .workerNoResult) := by
  refine ⟨by rfl, by rfl, by rfl, by rfl⟩

/-! ## Claim C6: id validation -/

/-- Claim C6 (amended): for every descriptor element whose version attribute
parses, the id is accepted — by `parse_metadata` on a standalone descriptor
and by `parse_repo` on a catalog entry alike — iff the attribute is present
and every character of it lies in `[a-z0-9._-]`; the empty id is accepted
(the code only searches for an invalid character, so the claim's non-empty
requirement does not hold, see the counterexample).  A rejected id raises
the fatal `InvalidAddonId`. -/
theorem addon_id_validation {el : XmlElem} {vs : List Char} {v : SemVer}
    (hva : el.versionAttr = some vs)
    (hv : AddonVersion.parse vs = some v) :
    ((∃ m, parse_metadata (.doc el) = .ok m) ↔
      (∃ s, el.idAttr = some s ∧ s.all isAddonIdChar = true)) ∧
    (validAddonId el.idAttr = false →
      parse_metadata (.doc el) = .error (.runtimeError (.invalidId el.idAttr))) ∧
    ((∃ ms, parse_repo (.doc [el]) = .ok ms) ↔
      (∃ s, el.idAttr = some s ∧ s.all isAddonIdChar = true)) := by
  obtain ⟨ida, va, pay⟩ := el
  have hva2 : va = some vs := hva
  subst hva2
  dsimp only
  have hpm : parse_metadata (.doc ⟨ida, some vs, pay⟩) =
      (if validAddonId ida then
        .ok ⟨ida.getD [], v, ⟨ida, some (AddonVersion.str v), pay⟩⟩
      else .error (.runtimeError (.invalidId ida))) := by
    simp only [parse_metadata]
    rw [hv]
  have hchar : validAddonId ida = true ↔
      (∃ s, ida = some s ∧ s.all isAddonIdChar = true) := by
    cases hid : ida with
    | none => simp [validAddonId]
    | some s =>
      simp only [validAddonId]
      constructor
      · intro h
        exact ⟨s, rfl, h⟩
      · rintro ⟨s2, hs2, h⟩
        injection hs2 with hs2
        rw [hs2]
        exact h
  refine ⟨?_, ?_, ?_⟩
  · rw [← hchar]
    constructor
    · rintro ⟨m, hm⟩
      by_cases hid : validAddonId ida
      · exact hid
      · rw [hpm, if_neg hid] at hm
        cases hm
    · intro hid
      rw [hpm, if_pos hid]
      exact ⟨_, rfl⟩
  · intro hid
    rw [hpm, if_neg (by simp [hid])]
  · rw [← hchar]
    constructor
    · rintro ⟨ms, hms⟩
      by_cases hid : validAddonId ida
      · exact hid
      · unfold parse_repo parseRepoElems at hms
        rw [hpm, if_neg hid] at hms
        simp at hms
    · intro hid
      unfold parse_repo parseRepoElems
      rw [hpm, if_pos hid]
      exact ⟨_, rfl⟩

/-- Witness for C6: `f-o.o_1` (every character in class) is accepted, `Foo`
(uppercase characters) is rejected with `InvalidAddonId`. -/
theorem addon_id_validation_witness :
    (∃ m, parse_metadata (.doc ⟨some "f-o.o_1".data, some "1.0.0".data, 0⟩) = .ok m) ∧
    parse_metadata (.doc ⟨some "Foo".data, some "1.0.0".data, 0⟩) =
      .error (.runtimeError (.invalidId (some "Foo".data))) := by
  constructor
  · exact (@addon_id_validation ⟨some "f-o.o_1".data, some "1.0.0".data, 0⟩
      "1.0.0".data ⟨1, 0, 0, [], []⟩ rfl (by decide)).1.mpr
      ⟨"f-o.o_1".data, rfl, by decide⟩
  · exact (@addon_id_validation ⟨some "Foo".data, some "1.0.0".data, 0⟩
      "1.0.0".data ⟨1, 0, 0, [], []⟩ rfl (by decide)).2.1 (by decide)

/-- Counterexample for C6 as stated: the empty id is present and fails the
claim's "non-empty, fully matches [a-z0-9._-]+" requirement, yet
`parse_metadata` accepts the record (re.search finds no invalid character
in an empty string). -/
theorem addon_id_validation_counterexample :
    parse_metadata (.doc ⟨some [], some "1.0.0".data, 0⟩) =
      .ok ⟨[], ⟨1, 0, 0, [], []⟩, ⟨some [], some "1.0.0".data, 0⟩⟩ ∧
    specAcceptId (some []) = false := by
  exact ⟨by rfl, by rfl⟩

/-! ## Claim C7: archive root check -/

theorem parse_metadata_ne_malformedArchive (src : XmlSource) :
    parse_metadata src ≠ .error (.runtimeError .malformedArchive) := by
  intro h
  unfold parse_metadata at h
  split at h
  · simp at h
  · simp at h
  · split at h
    · simp at h
    · split at h
      · simp at h
      · split at h
        · simp at h
        · simp at h

/-- Claim C7 (amended): the from-archive-file builder fails with
`MalformedArchive` iff the distinct first path components of the archive's
name list do not number exactly one — which is not the same as "contains
exactly one top-level directory", because a single top-level plain file also
passes (see the counterexample); in the passing case the descriptor is read
from `<root>/addon.xml` under the single leading name. -/
theorem zip_single_root_check (w : World) (loc : List Char) :
    ((fetch_addon_from_zip w loc = .error (.runtimeError .malformedArchive)) ↔
      (zipRoots (w.zipNames loc)).length ≠ 1) ∧
    (∀ root, zipRoots (w.zipNames loc) = [root] →
      fetch_addon_from_zip w loc =
        (match w.zipMember loc (joinPath root infoBasename) with
         | none => .error .keyError
         | some src => parse_metadata src)) := by
  constructor
  · unfold fetch_addon_from_zip
    rcases hroots : zipRoots (w.zipNames loc) with _ | ⟨r, _ | ⟨r2, rest⟩⟩
    · simp
    · simp only [List.length_singleton]
      constructor
      · intro hm
        exfalso
        cases hmem : w.zipMember loc (joinPath r infoBasename) with
        | none =>
          rw [hmem] at hm
          cases hm
        | some src =>
          rw [hmem] at hm
          exact parse_metadata_ne_malformedArchive src hm
      · intro h
        exact absurd rfl h
    · simp
  · intro root hroot
    unfold fetch_addon_from_zip
    rw [hroot]

/-- Witness for C7: an archive whose name list is
`[myaddon/addon.xml, myaddon/icon.png]` has the single leading name
`myaddon` and the descriptor is read from `myaddon/addon.xml`. -/
theorem zip_single_root_check_witness :
    zipRoots (zipDemoWorld.zipNames "a.zip".data) = ["myaddon".data] ∧
    fetch_addon_from_zip zipDemoWorld "a.zip".data =
      (match zipDemoWorld.zipMember "a.zip".data (joinPath "myaddon".data infoBasename) with
       | none => .error .keyError
       | some src => parse_metadata src) :=
  ⟨by decide, (zip_single_root_check zipDemoWorld "a.zip".data).2 "myaddon".data (by decide)⟩

/-- Counterexample for C7 as stated: an archive containing only the
top-level plain file `addon.xml` contains no top-level directory at all,
yet the builder does not fail with `MalformedArchive` (it proceeds and dies
on the missing member `addon.xml/addon.xml` with an uncaught `KeyError`). -/
theorem zip_single_root_check_counterexample :
    specTopLevelDirs (zipFileOnlyWorld.zipNames "b.zip".data) = [] ∧
    fetch_addon_from_zip zipFileOnlyWorld "b.zip".data = .error .keyError ∧
    fetch_addon_from_zip zipFileOnlyWorld "b.zip".data ≠
      .error (.runtimeError .malformedArchive) := by
  refine ⟨by decide, by rfl, by intro h; cases h⟩

/-! ## Claim C10: source classification -/

/-- Claim C10 (amended): every source string matching the URL pattern is
dispatched to the version-control strategy even when a directory or file of
that name exists; only non-URL strings are then tested as an existing
directory, then as an existing file, and otherwise fail with the
path-not-found error.  The URL pattern is: a scheme of `[A-Za-z0-9+.-]+`,
then `://`, then at least one character that is not a newline (the regex
`.` does not match a newline — slightly narrower than the claim's "at least
one character", see the counterexample). -/
theorem source_classification_precedence (w : World) (loc : List Char) :
    (is_url loc = true → classify_source w loc = .gitUrl) ∧
    (is_url loc = false → w.isDir loc = true → classify_source w loc = .folder) ∧
    (is_url loc = false → w.isDir loc = false → w.isFile loc = true →
      classify_source w loc = .zipFile) ∧
    (is_url loc = false → w.isDir loc = false → w.isFile loc = false →
      classify_source w loc = .notFound ∧
      fetch_addon w loc = some (.error (.pathNotFound loc))) ∧
    (is_url loc = true ↔ ∃ i, 0 < i ∧ (loc.take i).all schemeChar = true ∧
      (loc.drop i).take 3 = [':', '/', '/'] ∧
      (∃ c rest2, loc.drop (i + 3) = c :: rest2 ∧ c ≠ '\n')) := by
  refine ⟨?_, ?_, ?_, ?_, ?_⟩
  · intro hu
    unfold classify_source
    rw [if_pos hu]
  · intro hu hd
    unfold classify_source
    rw [if_neg (by simp [hu]), if_pos hd]
  · intro hu hd hf
    unfold classify_source
    rw [if_neg (by simp [hu]), if_neg (by simp [hd]), if_pos hf]
  · intro hu hd hf
    have hc : classify_source w loc = .notFound := by
      unfold classify_source
      rw [if_neg (by simp [hu]), if_neg (by simp [hd]), if_neg (by simp [hf])]
    refine ⟨hc, ?_⟩
    unfold fetch_addon
    rw [hc]
  · unfold is_url
    rw [List.any_eq_true]
    constructor
    · rintro ⟨i, hmem, hp⟩
      simp only [Bool.and_eq_true, decide_eq_true_eq] at hp
      obtain ⟨⟨⟨hpos, hsch⟩, hsep⟩, hlast⟩ := hp
      refine ⟨i, by simpa using hpos, hsch, hsep, ?_⟩
      cases hdrop : loc.drop (i + 3) with
      | nil =>
        rw [hdrop] at hlast
        cases hlast
      | cons c rest2 =>
        rw [hdrop] at hlast
        simp only [bne_iff_ne, ne_eq] at hlast
        exact ⟨c, rest2, rfl, hlast⟩
    · rintro ⟨i, hpos, hsch, hsep, c, rest2, hdrop, hnl⟩
      have hlen : i < loc.length := by
        have h1 : (loc.drop (i + 3)).length = loc.length - (i + 3) := loc.length_drop (i + 3)
        rw [hdrop] at h1
        simp at h1
        omega
      refine ⟨i, List.mem_range.mpr hlen, ?_⟩
      simp only [Bool.and_eq_true, decide_eq_true_eq]
      refine ⟨⟨⟨by simpa using hpos, hsch⟩, hsep⟩, ?_⟩
      rw [hdrop]
      simpa using hnl

/-- Witness for C10: `http://x` is classified as a version-control URL. -/
theorem source_classification_witness :
    classify_source demoWorld "http://x".data = .gitUrl :=
  (source_classification_precedence demoWorld "http://x".data).1 (by decide)

/-- Counterexample for C10 as stated: `a://` followed by a newline has a
scheme, `://` and at least one further character, yet `re.match`'s `.`
refuses the newline, so `is_url` is false and the source falls through to
the filesystem tests (here: path-not-found) instead of the version-control
strategy. -/
theorem source_classification_counterexample :
    specUrlPattern "a://\n".data = true ∧
    is_url "a://\n".data = false ∧
    classify_source demoWorld "a://\n".data = .notFound := by
  refine ⟨by decide, by decide, by decide⟩

/-! ## Claim C8: schedule independence of worker writes -/

theorem lastData_cons (p : List Char) (e : WriteEv) (es : List WriteEv) :
    lastData p (e :: es) =
      (lastData p es).or (if p = e.path then some e.data else none) := rfl

theorem applyWrites_eq_lastData : ∀ (T : List WriteEv) (f : List Char → Option Nat)
    (p : List Char), applyWrites T f p = (lastData p T).or (f p) := by
  intro T
  induction T with
  | nil =>
    intro f p
    rfl
  | cons e es ih =>
    intro f p
    unfold applyWrites lastData
    rw [ih]
    cases hl : lastData p es with
    | some d => simp [Option.or]
    | none =>
      by_cases hp : p = e.path
      · simp [Option.or, hp]
      · simp [Option.or, hp]

theorem lastData_eq_none {p : List Char} :
    ∀ {T : List WriteEv}, (∀ e ∈ T, e.path ≠ p) → lastData p T = none := by
  intro T
  induction T with
  | nil => intro _; rfl
  | cons e es ih =>
    intro h
    rw [lastData_cons, ih (fun e2 he2 => h e2 (by simp [he2]))]
    have : p ≠ e.path := fun hc => h e (by simp) hc.symm
    simp [this, Option.or]

theorem lastData_append (p : List Char) :
    ∀ (A B : List WriteEv), lastData p (A ++ B) = (lastData p B).or (lastData p A) := by
  intro A B
  induction A with
  | nil =>
    rw [List.nil_append]
    cases lastData p B <;> rfl
  | cons e es ih =>
    rw [List.cons_append, lastData_cons, lastData_cons, ih]
    cases lastData p B <;> cases lastData p es <;> rfl

theorem list_get_set_same (qs : List (List WriteEv)) (i : Nat) (tail : List WriteEv)
    (hj : i < (qs.set i tail).length) : (qs.set i tail).get ⟨i, hj⟩ = tail := by
  have hi : i < qs.length := by simpa using hj
  simp [List.get_eq_getElem, List.getElem_set]

theorem list_get_set_other (qs : List (List WriteEv)) (i j : Nat) (tail : List WriteEv)
    (hne : i ≠ j) (hj : j < (qs.set i tail).length) :
    (qs.set i tail).get ⟨j, hj⟩ = qs.get ⟨j, by simpa using hj⟩ := by
  simp [List.get_eq_getElem, List.getElem_set, hne]

theorem isSched_mem {qs : List (List WriteEv)} {T : List WriteEv}
    (hs : IsSched qs T) : ∀ e ∈ T, ∃ i, ∃ hi : i < qs.length, e ∈ qs.get ⟨i, hi⟩ := by
  induction hs with
  | @nil qs2 hall =>
    intro e he
    cases he
  | @step qs2 i hi e tail rest hq hrec ih =>
    intro e2 he2
    rcases List.mem_cons.mp he2 with he2 | he2
    · subst he2
      exact ⟨i, hi, by rw [hq]; simp⟩
    · obtain ⟨j, hj, hmem⟩ := ih e2 he2
      by_cases hij : j = i
      · subst hij
        rw [list_get_set_same] at hmem
        refine ⟨j, by simpa using hj, ?_⟩
        rw [hq]
        simp [hmem]
      · rw [list_get_set_other qs2 i j tail (Ne.symm hij) hj] at hmem
        exact ⟨j, by simpa using hj, hmem⟩

theorem isSched_lastData {p : List Char} :
    ∀ {qs : List (List WriteEv)} {T : List WriteEv}, IsSched qs T →
      ∀ {i : Nat} (hi : i < qs.length),
      (∀ j (hj : j < qs.length), j ≠ i → ∀ e ∈ qs.get ⟨j, hj⟩, e.path ≠ p) →
      lastData p T = lastData p (qs.get ⟨i, hi⟩) := by
  intro qs T hs
  induction hs with
  | @nil qs2 hall =>
    intro i hi hown
    rw [hall (qs2.get ⟨i, hi⟩) (List.get_mem qs2 i hi)]
  | @step qs2 i0 hi0 e tail rest hq hrec ih =>
    intro i hi hown
    have hown2 : ∀ j (hj : j < (qs2.set i0 tail).length), j ≠ i →
        ∀ e2 ∈ (qs2.set i0 tail).get ⟨j, hj⟩, e2.path ≠ p := by
      intro j hj hji e2 he2
      by_cases hji0 : j = i0
      · subst hji0
        rw [list_get_set_same] at he2
        exact hown j (by simpa using hj) hji e2 (by rw [hq]; simp [he2])
      · rw [list_get_set_other qs2 i0 j tail (Ne.symm hji0) hj] at he2
        exact hown j (by simpa using hj) hji e2 he2
    by_cases hii0 : i = i0
    · subst hii0
      have ihx := ih (i := i) (by simpa using hi) hown2
      rw [list_get_set_same] at ihx
      rw [hq, lastData_cons, lastData_cons, ihx]
    · have hep : e.path ≠ p := by
        refine hown i0 hi0 (fun h => hii0 h.symm) e ?_
        rw [hq]
        simp
      have ihx := ih (i := i) (by simpa using hi) hown2
      rw [list_get_set_other qs2 i0 i tail (fun h => hii0 h.symm) (by simpa using hi)] at ihx
      rw [lastData_cons, ihx]
      have hpe : p ≠ e.path := fun hc => hep hc.symm
      rw [if_neg hpe]
      cases lastData p (qs2.get ⟨i, hi⟩) <;> rfl

/-- Claim C8 (amended): provided distinct workers write disjoint path sets
(in particular when all addon ids are distinct), every trace a parallel
execution can produce — any interleaving of the per-worker write queues —
leaves every path with exactly the same final content as the sequential
mode, which runs the queues one after another in input order.  Without the
disjointness proviso the claim fails: two workers racing on one path can
finish in either order (see the counterexample). -/
theorem parallel_sequential_equivalence {qs : List (List WriteEv)} {T : List WriteEv}
    (hs : IsSched qs T)
    (hdisj : ∀ i j (hi : i < qs.length) (hj : j < qs.length), i ≠ j →
      ∀ e ∈ qs.get ⟨i, hi⟩, ∀ e2 ∈ qs.get ⟨j, hj⟩, e.path ≠ e2.path)
    (f : List Char → Option Nat) (p : List Char) :
    applyWrites T f p = applyWrites (sequentialTrace qs) f p := by
  rw [applyWrites_eq_lastData, applyWrites_eq_lastData]
  suffices h : lastData p T = lastData p (sequentialTrace qs) by rw [h]
  by_cases hocc : ∃ i, ∃ hi : i < qs.length, ∃ e ∈ qs.get ⟨i, hi⟩, e.path = p
  · obtain ⟨i, hi, e0, he0, hp0⟩ := hocc
    have hown : ∀ j (hj : j < qs.length), j ≠ i → ∀ e ∈ qs.get ⟨j, hj⟩, e.path ≠ p := by
      intro j hj hji e he hc
      exact hdisj j i hj hi hji e he e0 he0 (hc.trans hp0.symm)
    rw [isSched_lastData hs hi hown]
    unfold sequentialTrace
    clear hs hdisj
    induction qs generalizing i with
    | nil => exact absurd hi (by simp)
    | cons q qs2 ih =>
      rw [List.flatten_cons, lastData_append]
      cases i with
      | zero =>
        have hq0 : lastData p (List.flatten qs2) = none := by
          apply lastData_eq_none
          intro e he
          rw [List.mem_flatten] at he
          obtain ⟨l, hl, hel⟩ := he
          obtain ⟨k, hlk⟩ := List.mem_iff_get.mp hl
          have hk1 : k.val + 1 < (q :: qs2).length := by
            have := k.isLt
            simp only [List.length_cons]
            omega
          refine hown (k.val + 1) hk1 (by omega) e ?_
          have hg : (q :: qs2).get ⟨k.val + 1, hk1⟩ = qs2.get k := by
            simp [List.get]
          rw [hg, hlk]
          exact hel
        rw [hq0]
        simp only [List.get]
        cases lastData p q <;> rfl
      | succ i2 =>
        have hq0 : lastData p q = none := by
          apply lastData_eq_none
          intro e he
          exact hown 0 (by simp) (by omega) e (by simpa [List.get] using he)
        rw [hq0]
        have hi2 : i2 < qs2.length := by simpa using hi
        have hown2 : ∀ j (hj : j < qs2.length), j ≠ i2 →
            ∀ e ∈ qs2.get ⟨j, hj⟩, e.path ≠ p := by
          intro j hj hji e he
          refine hown (j + 1) (by simpa using hj) (by omega) e ?_
          simpa [List.get] using he
        have he02 : e0 ∈ qs2.get ⟨i2, hi2⟩ := by
          simpa [List.get] using he0
        have hrec := ih i2 hi2 he02 hown2
        have hg : (q :: qs2).get ⟨i2 + 1, hi⟩ = qs2.get ⟨i2, hi2⟩ := by
          simp [List.get]
        rw [hg, hrec]
        cases lastData p qs2.flatten <;> rfl
  · push_neg at hocc
    have hT : lastData p T = none := by
      apply lastData_eq_none
      intro e he
      obtain ⟨i, hi, hmem⟩ := isSched_mem hs e he
      exact hocc i hi e hmem
    have hS : lastData p (sequentialTrace qs) = none := by
      apply lastData_eq_none
      intro e he
      unfold sequentialTrace at he
      rw [List.mem_flatten] at he
      obtain ⟨l, hl, hel⟩ := he
      obtain ⟨k, hlk⟩ := List.mem_iff_get.mp hl
      refine hocc k.val k.isLt e ?_
      have hg : qs.get ⟨k.val, k.isLt⟩ = l := by
        rw [Fin.eta]
        exact hlk
      rw [hg]
      exact hel
    rw [hT, hS]

/-- Witness for C8: two workers with disjoint write paths (`a` and `b`)
run under the swapped schedule; the final content of path `a` equals the
sequential outcome. -/
theorem parallel_sequential_equivalence_witness :
    applyWrites [⟨"b".data, 2⟩, ⟨"a".data, 1⟩] (fun _ => none) "a".data =
      applyWrites (sequentialTrace [[⟨"a".data, 1⟩], [⟨"b".data, 2⟩]])
        (fun _ => none) "a".data := by
  refine parallel_sequential_equivalence ?_ ?_ (fun _ => none) "a".data
  · exact IsSched.step 1 (by decide) ⟨"b".data, 2⟩ [] [⟨"a".data, 1⟩] (by rfl)
      (IsSched.step 0 (by decide) ⟨"a".data, 1⟩ [] [] (by rfl)
        (IsSched.nil (by decide)))
  · intro i j hi hj hne e he e2 he2
    simp only [List.length_cons, List.length_nil] at hi hj
    interval_cases i <;> interval_cases j
    · exact absurd rfl hne
    · simp only [List.get] at he he2
      rw [List.mem_singleton] at he he2
      subst he
      subst he2
      decide
    · simp only [List.get] at he he2
      rw [List.mem_singleton] at he he2
      subst he
      subst he2
      decide
    · exact absurd rfl hne

/-- Counterexample for C8 as stated: two workers that write the same path
(two sources yielding the same addon id and version but different archive
bytes) admit a parallel schedule whose final content differs from the
sequential mode's. -/
theorem parallel_sequential_counterexample :
    IsSched [[⟨"x".data, 1⟩], [⟨"x".data, 2⟩]] [⟨"x".data, 2⟩, ⟨"x".data, 1⟩] ∧
    applyWrites [⟨"x".data, 2⟩, ⟨"x".data, 1⟩] (fun _ => none) "x".data = some 1 ∧
    applyWrites (sequentialTrace [[⟨"x".data, 1⟩], [⟨"x".data, 2⟩]])
      (fun _ => none) "x".data = some 2 := by
  refine ⟨?_, by rfl, by rfl⟩
  exact IsSched.step 1 (by decide) ⟨"x".data, 2⟩ [] [⟨"x".data, 1⟩] (by rfl)
    (IsSched.step 0 (by decide) ⟨"x".data, 1⟩ [] [] (by rfl)
      (IsSched.nil (by decide)))
